import Mathlib

/-!
Verification of the batched Merkle attestor in
`scripts/sovereign/merkle_tree.py` (classes `MerkleTree` and
`TokenBlocker`).

Shallow embedding conventions:

* The injected hash function (`hash_fn`, defaulting to SHA-256 in the
  Python source) is an abstract parameter `h : String → String`; the
  combine step `hash_fn(left + right)` is `combine h` below.
* Python lists become `List String`; mutating methods become functions
  returning the updated record, paired with the method's return value.
* Python integer indices are kept as `Int`, with Python's indexing
  semantics: a negative index `i` addresses position `len + i`, and an
  index outside `[-len, len)` raises `IndexError`, which the embedding
  models as `none` (`pyGet`).  Python's `//` is floor division
  (`Int.fdiv`) and `%` with a positive modulus agrees with `Int.emod`.
* The `signer` object is an optional function `String → Option String`;
  a result of `none` models the `sign` call raising an exception.
* `time.time()` is an injected timestamp parameter `ts : Nat`.
-/

/-- Hashes are hex strings in the source; we keep them as strings. -/
abbrev Hash := String

/-- Field-for-field translation of the Python dataclass `MerkleProof`. -/
structure MerkleProof where
  leaf_hash : Hash
  leaf_index : Int
  siblings : List Hash
  root : Hash
deriving DecidableEq

/-- Field-for-field translation of the Python dataclass `SignedBlock`. -/
structure SignedBlock where
  tokens : List String
  merkle_root : Hash
  signature : Option String
  timestamp : Nat
  block_id : Nat
deriving DecidableEq

/-- The mutable state of the Python class `MerkleTree`: its list of leaf
hashes and the cached list of tree levels (level 0 = leaves). -/
structure MerkleTree where
  leaves : List Hash
  tree : List (List Hash)
deriving DecidableEq

/-- `MerkleTree._combine`: `self.hash_fn(left + right)`. -/
def combine (h : String → String) (left right : Hash) : Hash :=
  h (left ++ right)

/-- `MerkleTree.add_leaf`: appends `hash_fn(data)` to `self.leaves` and
returns the new leaf's index `len(self.leaves) - 1`. -/
def MerkleTree.add_leaf (h : String → String) (t : MerkleTree) (data : String) :
    MerkleTree × Nat :=
  (⟨t.leaves ++ [h data], t.tree⟩, t.leaves.length)

/-- One iteration of the `while` loop body in `MerkleTree.build`: the
`for i in range(0, len(current_level), 2)` pass that pairs adjacent
nodes, with a lone trailing node paired with itself. -/
def buildLevel (h : String → String) : List Hash → List Hash
  | [] => []
  | [x] => [combine h x x]
  | x :: y :: rest => combine h x y :: buildLevel h rest

theorem buildLevel_length (h : String → String) :
    (l : List Hash) → (buildLevel h l).length = (l.length + 1) / 2
  | [] => rfl
  | [x] => by simp [buildLevel]
  | _ :: _ :: rest => by
      have ih := buildLevel_length h rest
      simp only [buildLevel, List.length_cons, ih]
      omega

/-- The `while len(current_level) > 1` loop of `MerkleTree.build`,
returning the accumulated list of levels (bottom level first). -/
def buildTree (h : String → String) (cur : List Hash) : List (List Hash) :=
  if cur.length ≤ 1 then [cur]
  else cur :: buildTree h (buildLevel h cur)
termination_by cur.length
decreasing_by
  simp only [buildLevel_length]
  omega

/-- `MerkleTree.build`: with no leaves it returns `hash_fn("")` and
leaves `self.tree` untouched; otherwise it stores the list of levels in
`self.tree` and returns the single node of the top level. -/
def MerkleTree.build (h : String → String) (t : MerkleTree) :
    MerkleTree × Hash :=
  if t.leaves = [] then (t, h "")
  else
    (⟨t.leaves, buildTree h t.leaves⟩, ((buildTree h t.leaves).getLastD []).headD "")

/-- `MerkleTree.get_root`: rebuild when `self.tree` is empty or its top
level is not a single node, else return the cached top node. -/
def MerkleTree.get_root (h : String → String) (t : MerkleTree) :
    MerkleTree × Hash :=
  if t.tree = [] ∨ (t.tree.getLastD []).length ≠ 1 then MerkleTree.build h t
  else (t, (t.tree.getLastD []).headD "")

/-- Python list subscription `l[i]` with an `int` index: a negative
index addresses `len(l) + i`; an index outside the valid range raises
`IndexError`, modelled as `none`. -/
def pyGet (l : List Hash) (i : Int) : Option Hash :=
  let j : Int := if i < 0 then (l.length : Int) + i else i
  if j < 0 then none else l[j.toNat]?

/-- The `for level in self.tree[:-1]` loop of `MerkleTree.get_proof`:
collects the sibling of the running index at each level (the node
itself when the sibling position is past the end of the level), halving
the index with Python floor division.  `none` models an `IndexError`
escaping the loop. -/
def proofSiblings : List (List Hash) → Int → Option (List Hash)
  | [], _ => some []
  | level :: rest, ci =>
    let si : Int := if Int.emod ci 2 = 0 then ci + 1 else ci - 1
    match (if si < (level.length : Int) then pyGet level si else pyGet level ci) with
    | none => none
    | some s =>
      match proofSiblings rest (Int.fdiv ci 2) with
      | none => none
      | some sibs => some (s :: sibs)

/-- `MerkleTree.get_proof`: builds first when `self.tree` is empty, runs
the sibling-collection loop over all levels but the top one, then reads
`self.leaves[index]` and `self.get_root()`.  A `none` result models the
uncaught `IndexError` Python raises for an index outside the valid
range. -/
def MerkleTree.get_proof (h : String → String) (t : MerkleTree) (index : Int) :
    MerkleTree × Option MerkleProof :=
  let t1 := if t.tree = [] then (MerkleTree.build h t).1 else t
  match proofSiblings t1.tree.dropLast index with
  | none => (t1, none)
  | some sibs =>
    match pyGet t1.leaves index with
    | none => (t1, none)
    | some lh =>
      let r := MerkleTree.get_root h t1
      (r.1, some ⟨lh, index, sibs, r.2⟩)

/-- The `for sibling in proof.siblings` loop of
`MerkleTree.verify_proof`: even running index combines
`(current, sibling)`, odd combines `(sibling, current)`, and the index
is halved with floor division each step. -/
def verifyLoop (h : String → String) : Hash → Int → List Hash → Hash
  | cur, _, [] => cur
  | cur, idx, s :: rest =>
    verifyLoop h (if Int.emod idx 2 = 0 then combine h cur s else combine h s cur)
      (Int.fdiv idx 2) rest

/-- `MerkleTree.verify_proof`: recompute the root from the leaf hash and
sibling list and compare with `proof.root`. -/
def MerkleTree.verify_proof (h : String → String) (p : MerkleProof) : Bool :=
  verifyLoop h p.leaf_hash p.leaf_index p.siblings == p.root

/-- `MerkleTree.clear`: reset both lists. -/
def MerkleTree.clear (_ : MerkleTree) : MerkleTree := ⟨[], []⟩

/-- Adds a list of items through `MerkleTree.add_leaf` one at a time,
in order. -/
def addLeaves (h : String → String) (t : MerkleTree) (items : List String) :
    MerkleTree :=
  items.foldl (fun acc it => (MerkleTree.add_leaf h acc it).1) t

/-- The mutable state of the Python class `TokenBlocker` (the injected
`signer` is passed to the operations instead of being stored). -/
structure TokenBlocker where
  block_size : Nat
  current_tokens : List String
  current_tree : MerkleTree
  signed_blocks : List SignedBlock
  block_counter : Nat
deriving DecidableEq

/-- `TokenBlocker.__init__`: empty accumulation state, counter 0. -/
def TokenBlocker.init (block_size : Nat) : TokenBlocker :=
  ⟨block_size, [], ⟨[], []⟩, [], 0⟩

/-- `TokenBlocker._finalize_block`: take the root of the current tree,
try the signer inside `try/except: pass` (a signer result of `none`
models the raised exception, caught and ignored), append the
`SignedBlock`, bump the counter and reset the accumulation state. -/
def TokenBlocker.finalize_block (h : String → String)
    (signer : Option (String → Option String)) (ts : Nat) (b : TokenBlocker) :
    TokenBlocker × SignedBlock :=
  let rt := MerkleTree.get_root h b.current_tree
  let signature : Option String :=
    match signer with
    | none => none
    | some f => match f rt.2 with
      | none => none
      | some s => some s
  let blk : SignedBlock := ⟨b.current_tokens, rt.2, signature, ts, b.block_counter⟩
  (⟨b.block_size, [], MerkleTree.clear rt.1, b.signed_blocks ++ [blk],
    b.block_counter + 1⟩, blk)

/-- `TokenBlocker.add_token`: append the token, add its leaf, and seal
via `_finalize_block` exactly when the open block has reached
`block_size` items. -/
def TokenBlocker.add_token (h : String → String)
    (signer : Option (String → Option String)) (ts : Nat) (b : TokenBlocker)
    (token : String) : TokenBlocker × Option SignedBlock :=
  let b1 : TokenBlocker :=
    ⟨b.block_size, b.current_tokens ++ [token],
      (MerkleTree.add_leaf h b.current_tree token).1, b.signed_blocks,
      b.block_counter⟩
  if b1.block_size ≤ b1.current_tokens.length then
    let r := TokenBlocker.finalize_block h signer ts b1
    (r.1, some r.2)
  else (b1, none)

/-- `TokenBlocker.flush`: seal the open block if it is non-empty, else
do nothing and return `None`. -/
def TokenBlocker.flush (h : String → String)
    (signer : Option (String → Option String)) (ts : Nat) (b : TokenBlocker) :
    TokenBlocker × Option SignedBlock :=
  if b.current_tokens = [] then (b, none)
  else
    let r := TokenBlocker.finalize_block h signer ts b
    (r.1, some r.2)

/-- `TokenBlocker.get_all_blocks`: the sealed-block history. -/
def TokenBlocker.get_all_blocks (b : TokenBlocker) : List SignedBlock :=
  b.signed_blocks

/-- Feeds a list of tokens through `TokenBlocker.add_token` one at a
time, collecting each call's return value in order. -/
def runAdds (h : String → String) (signer : Option (String → Option String))
    (ts : Nat) : List String → TokenBlocker → TokenBlocker × List (Option SignedBlock)
  | [], b => (b, [])
  | tk :: tks, b =>
    let r := TokenBlocker.add_token h signer ts b tk
    let rest := runAdds h signer ts tks r.1
    (rest.1, r.2 :: rest.2)

/-- One caller-visible operation on a `TokenBlocker`. -/
inductive BlockerOp where
  | add : String → BlockerOp
  | flush : BlockerOp
deriving DecidableEq

/-- Runs a sequence of `add_token` / `flush` calls. -/
def runOps (h : String → String) (signer : Option (String → Option String))
    (ts : Nat) : List BlockerOp → TokenBlocker → TokenBlocker
  | [], b => b
  | BlockerOp.add tk :: ops, b =>
    runOps h signer ts ops (TokenBlocker.add_token h signer ts b tk).1
  | BlockerOp.flush :: ops, b =>
    runOps h signer ts ops (TokenBlocker.flush h signer ts b).1

/-- A concrete injective stand-in hash used to instantiate witnesses. -/
def hashMark (s : String) : String := "#" ++ s

theorem int_emod_two_natCast (n : Nat) :
    Int.emod (n : Int) 2 = ((n % 2 : Nat) : Int) := rfl

theorem int_fdiv_two_natCast (n : Nat) :
    Int.fdiv (n : Int) 2 = ((n / 2 : Nat) : Int) := (Int.ofNat_fdiv n 2).symm

theorem pyGet_natCast (l : List Hash) (j : Nat) : pyGet l (j : Int) = l[j]? := by
  have hj : ¬((j : Int) < 0) := by omega
  simp [pyGet, hj]

/-- Nat-index mirror of `proofSiblings`, used for reasoning about the
in-range walk (`proofSiblings_natCast` ties it to the embedding). -/
def sibsN : List (List Hash) → Nat → Option (List Hash)
  | [], _ => some []
  | level :: rest, ci =>
    match (if (if ci % 2 = 0 then ci + 1 else ci - 1) < level.length
        then level[(if ci % 2 = 0 then ci + 1 else ci - 1)]? else level[ci]?) with
    | none => none
    | some s =>
      match sibsN rest (ci / 2) with
      | none => none
      | some sibs => some (s :: sibs)

/-- Nat-index mirror of `verifyLoop`. -/
def verifyLoopN (h : String → String) : Hash → Nat → List Hash → Hash
  | cur, _, [] => cur
  | cur, idx, s :: rest =>
    verifyLoopN h (if idx % 2 = 0 then combine h cur s else combine h s cur)
      (idx / 2) rest

theorem proofSiblings_natCast :
    (levels : List (List Hash)) → (ci : Nat) →
    proofSiblings levels (ci : Int) = sibsN levels ci
  | [], _ => rfl
  | level :: rest, ci => by
    have ih := proofSiblings_natCast rest (ci / 2)
    simp only [proofSiblings, sibsN, int_emod_two_natCast, int_fdiv_two_natCast, ih]
    by_cases hp : ci % 2 = 0
    · have hc : ((ci % 2 : Nat) : Int) = 0 := by rw [hp]; rfl
      have h1 : ((ci : Int) + 1) = ((ci + 1 : Nat) : Int) := by push_cast; ring
      rw [if_pos hc, if_pos hp]
      simp only [h1, pyGet_natCast, Nat.cast_lt]
    · have hci : 1 ≤ ci := by omega
      have h1 : ((ci : Int) - 1) = ((ci - 1 : Nat) : Int) := by
        push_cast [hci]; ring
      have hc : ¬ ((ci % 2 : Nat) : Int) = 0 := by
        simp only [ne_eq, Nat.cast_eq_zero]; omega
      rw [if_neg hc, if_neg hp]
      simp only [h1, pyGet_natCast, Nat.cast_lt]

theorem verifyLoop_natCast (h : String → String) :
    (sibs : List Hash) → (cur : Hash) → (idx : Nat) →
    verifyLoop h cur (idx : Int) sibs = verifyLoopN h cur idx sibs
  | [], _, _ => rfl
  | s :: rest, cur, idx => by
    have ih := verifyLoop_natCast h rest
      (if idx % 2 = 0 then combine h cur s else combine h s cur) (idx / 2)
    simp only [verifyLoop, verifyLoopN, int_emod_two_natCast, int_fdiv_two_natCast]
    by_cases hp : idx % 2 = 0
    · simp only [hp, Nat.cast_zero, if_pos rfl] at ih ⊢
      exact ih
    · have h2 : ¬ ((idx % 2 : Nat) : Int) = 0 := by
        simp only [ne_eq, Nat.cast_eq_zero]; omega
      simp only [if_neg h2, if_neg hp] at ih ⊢
      exact ih

theorem buildTree_eq (h : String → String) (cur : List Hash) :
    buildTree h cur =
      if cur.length ≤ 1 then [cur] else cur :: buildTree h (buildLevel h cur) := by
  rw [buildTree]

theorem buildTree_ne_nil (h : String → String) (cur : List Hash) :
    buildTree h cur ≠ [] := by
  rw [buildTree_eq]
  split <;> simp

theorem dropLast_cons_ne (a : List Hash) (T : List (List Hash)) (hT : T ≠ []) :
    (a :: T).dropLast = a :: T.dropLast := by
  cases T with
  | nil => exact absurd rfl hT
  | cons b bs => simp

theorem getLast?_cons_ne (a : List Hash) (T : List (List Hash)) (hT : T ≠ []) :
    (a :: T).getLast? = T.getLast? := by
  cases T with
  | nil => exact absurd rfl hT
  | cons b bs => exact List.getLast?_cons_cons

/-- One level up: the parent of position `ci` in the next level built by
`buildLevel` is the parity-ordered combination of the node at `ci` and
the sibling that `get_proof`'s loop picks (the node itself when the
sibling position is past the end). -/
theorem buildLevel_parent (h : String → String) :
    (L : List Hash) → (ci : Nat) → ci < L.length →
    ∃ cv s, L[ci]? = some cv ∧
      (if (if ci % 2 = 0 then ci + 1 else ci - 1) < L.length
        then L[(if ci % 2 = 0 then ci + 1 else ci - 1)]? else L[ci]?) = some s ∧
      (buildLevel h L)[ci / 2]? = some (if ci % 2 = 0 then combine h cv s else combine h s cv)
  | [], ci, hci => absurd hci (by simp)
  | [x], ci, hci => by
    have hc : ci = 0 := by simpa using hci
    subst hc
    exact ⟨x, x, rfl, by simp, by simp [buildLevel]⟩
  | x :: y :: rest, 0, _ => by
    refine ⟨x, y, rfl, ?_, ?_⟩
    · simp
    · simp [buildLevel]
  | x :: y :: rest, 1, _ => by
    refine ⟨y, x, ?_, ?_, ?_⟩
    · simp
    · simp
    · simp [buildLevel]
  | x :: y :: rest, k + 2, hci => by
    have hk : k < rest.length := by simpa using hci
    obtain ⟨cv, s, hcv, hs, hup⟩ := buildLevel_parent h rest k hk
    have hpar : (k + 2) % 2 = k % 2 := by omega
    refine ⟨cv, s, by simpa using hcv, ?_, ?_⟩
    · have harith : (if (k + 2) % 2 = 0 then k + 2 + 1 else k + 2 - 1)
          = (if k % 2 = 0 then k + 1 else k - 1) + 2 := by
        by_cases hp : k % 2 = 0
        · have hp2 : (k + 2) % 2 = 0 := by omega
          simp [hp, hp2]
        · have hp2 : ¬ (k + 2) % 2 = 0 := by omega
          have hk1 : 1 ≤ k := by omega
          simp [hp, hp2]
          omega
      rw [harith]
      generalize hm : (if k % 2 = 0 then k + 1 else k - 1) = m at hs
      by_cases hlt : m < rest.length
      · rw [if_pos hlt] at hs
        rw [if_pos (by simp only [List.length_cons]; omega)]
        simpa using hs
      · rw [if_neg hlt] at hs
        rw [if_neg (by simp only [List.length_cons]; omega)]
        simpa using hs
    · have hd : (k + 2) / 2 = k / 2 + 1 := by omega
      rw [hpar, hd]
      simp only [buildLevel, List.getElem?_cons_succ]
      exact hup

/-- Full walk up a built tree: for a non-empty leaf level and an
in-range index, the sibling-collection loop succeeds, the top level of
the built tree is a single node, and replaying `verify_proof`'s loop
from the indexed leaf over the collected siblings reproduces that top
node. -/
theorem tree_walk (h : String → String) (L : List Hash) (ci : Nat)
    (hL : L ≠ []) (hci : ci < L.length) :
    ∃ sibs r cv, sibsN (buildTree h L).dropLast ci = some sibs ∧
      (buildTree h L).getLast? = some [r] ∧ L[ci]? = some cv ∧
      verifyLoopN h cv ci sibs = r := by
  by_cases hlen : L.length ≤ 1
  · have h1 : L.length = 1 := by
      have hpos : 0 < L.length := List.length_pos.mpr hL
      omega
    have hc0 : ci = 0 := by omega
    subst hc0
    obtain ⟨x, hx⟩ : ∃ x, L = [x] := by
      cases L with
      | nil => exact absurd rfl hL
      | cons a l =>
        cases l with
        | nil => exact ⟨a, rfl⟩
        | cons b bs => simp at h1
    subst hx
    rw [buildTree_eq, if_pos hlen]
    exact ⟨[], x, x, rfl, rfl, rfl, rfl⟩
  · have hL2 : 2 ≤ L.length := by omega
    have hlvl : (buildLevel h L).length = (L.length + 1) / 2 := buildLevel_length h L
    have hne2 : buildLevel h L ≠ [] := by
      have : 0 < (buildLevel h L).length := by omega
      exact List.length_pos.mp this
    have hci2 : ci / 2 < (buildLevel h L).length := by omega
    obtain ⟨sibs, r, cv', hsibs, hlast, hget, hver⟩ :=
      tree_walk h (buildLevel h L) (ci / 2) hne2 hci2
    obtain ⟨cv, s, hcv, hs, hup⟩ := buildLevel_parent h L ci hci
    have hcv' : cv' = if ci % 2 = 0 then combine h cv s else combine h s cv := by
      rw [hget] at hup
      exact (Option.some.injEq _ _).mp hup
    have hT : buildTree h L = L :: buildTree h (buildLevel h L) := by
      rw [buildTree_eq, if_neg hlen]
    refine ⟨s :: sibs, r, cv, ?_, ?_, hcv, ?_⟩
    · rw [hT, dropLast_cons_ne _ _ (buildTree_ne_nil h _)]
      simp only [sibsN, hs, hsibs]
    · rw [hT, getLast?_cons_ne _ _ (buildTree_ne_nil h _)]
      exact hlast
    · simp only [verifyLoopN]
      rw [← hcv']
      exact hver
termination_by L.length
decreasing_by
  simp only [buildLevel_length]
  omega

theorem addLeaves_spec (h : String → String) :
    (items : List String) → (t : MerkleTree) →
    addLeaves h t items = ⟨t.leaves ++ items.map h, t.tree⟩
  | [], t => by simp [addLeaves]
  | it :: its, t => by
    have ih := addLeaves_spec h its ⟨t.leaves ++ [h it], t.tree⟩
    simp only [addLeaves, List.foldl_cons, MerkleTree.add_leaf] at ih ⊢
    rw [ih]
    simp

theorem getLastD_of_getLast? (T : List (List Hash)) (x : List Hash)
    (hx : T.getLast? = some x) : T.getLastD [] = x := by
  rw [List.getLastD_eq_getLast?, hx]
  rfl

/-- Claim C1: for every block built from a non-empty ordered list of
items and every valid leaf index `i`, the proof produced by `get_proof`
for index `i` passes `verify_proof`: the root recomputed with the
index-parity rule and odd-node self-duplication equals the stored
Merkle root. -/
theorem round_trip_verifies (h : String → String) (items : List String) (i : Nat)
    (hne : items ≠ []) (hi : i < items.length) :
    ∃ p, (MerkleTree.get_proof h (MerkleTree.build h (addLeaves h ⟨[], []⟩ items)).1 (i : Int)).2
        = some p ∧
      MerkleTree.verify_proof h p = true := by
  have hadd : addLeaves h ⟨[], []⟩ items = ⟨items.map h, []⟩ := by
    rw [addLeaves_spec]
    simp
  have hLne : items.map h ≠ [] := by simpa using hne
  have hLi : i < (items.map h).length := by simpa using hi
  obtain ⟨sibs, r, cv, hsibs, hlast, hget, hver⟩ := tree_walk h (items.map h) i hLne hLi
  have hbuild : (MerkleTree.build h ⟨items.map h, []⟩).1
      = ⟨items.map h, buildTree h (items.map h)⟩ := by
    rw [MerkleTree.build, if_neg hLne]
  have hgd : (buildTree h (items.map h)).getLastD [] = [r] :=
    getLastD_of_getLast? _ _ hlast
  have hroot : MerkleTree.get_root h ⟨items.map h, buildTree h (items.map h)⟩
      = (⟨items.map h, buildTree h (items.map h)⟩, r) := by
    rw [MerkleTree.get_root,
      if_neg (by simp [List.getLastD_eq_getLast?, hlast, buildTree_ne_nil h (items.map h)])]
    rw [hgd]
    rfl
  refine ⟨⟨cv, (i : Int), sibs, r⟩, ?_, ?_⟩
  · rw [hadd, hbuild, MerkleTree.get_proof]
    simp only [if_neg (buildTree_ne_nil h (items.map h)), proofSiblings_natCast, hsibs,
      pyGet_natCast, hget, hroot]
  · rw [MerkleTree.verify_proof]
    simp only [MerkleProof.leaf_hash, MerkleProof.leaf_index, MerkleProof.siblings,
      MerkleProof.root, verifyLoop_natCast, hver, beq_self_eq_true]

/-- Concrete witness for C1: items `["a", "b", "c"]`, index 2, with the
injective stand-in hash. -/
theorem round_trip_verifies_witness :
    (["a", "b", "c"] : List String) ≠ [] ∧ 2 < (["a", "b", "c"] : List String).length ∧
    ∃ p, (MerkleTree.get_proof hashMark
        (MerkleTree.build hashMark (addLeaves hashMark ⟨[], []⟩ ["a", "b", "c"])).1 ((2 : Nat) : Int)).2
        = some p ∧
      MerkleTree.verify_proof hashMark p = true :=
  ⟨by decide, by decide,
    round_trip_verifies hashMark ["a", "b", "c"] 2 (by decide) (by decide)⟩

/-- Claim C2: for a block of exactly 3 items `[a, b, c]` the sealed
Merkle root is `combine(combine(hash(a), hash(b)), combine(hash(c), hash(c)))`:
the lone third node is paired with itself, not promoted unpaired. -/
theorem odd_node_duplication (h : String → String)
    (signer : Option (String → Option String)) (ts : Nat) (a b c : String) :
    ((runAdds h signer ts [a, b, c] (TokenBlocker.init 3)).2.map
        (Option.map SignedBlock.merkle_root))
      = [none, none, some (combine h (combine h (h a) (h b)) (combine h (h c) (h c)))] := by
  simp [runAdds, TokenBlocker.add_token, TokenBlocker.init, TokenBlocker.finalize_block,
    MerkleTree.add_leaf, MerkleTree.get_root, MerkleTree.build, buildTree_eq, buildLevel,
    MerkleTree.clear]

/-- Claim C8: the Merkle root is a deterministic function of the ordered
leaf list alone: two tree states holding the leaf hashes of the same
ordered items (under the same hash function) build identical roots,
whatever their cached `tree` fields hold. -/
theorem root_determinism (h : String → String) (items : List String)
    (t1 t2 : MerkleTree) (h1 : t1.leaves = items.map h) (h2 : t2.leaves = items.map h) :
    (MerkleTree.build h t1).2 = (MerkleTree.build h t2).2 := by
  rw [MerkleTree.build, MerkleTree.build, h1, h2]
  split <;> rfl

/-- Concrete witness for C8: the same single-item leaf list in two
states with different cached trees. -/
theorem root_determinism_witness :
    ((⟨["#a"], []⟩ : MerkleTree).leaves = ["a"].map hashMark) ∧
    ((⟨["#a"], [["z"]]⟩ : MerkleTree).leaves = ["a"].map hashMark) ∧
    (MerkleTree.build hashMark ⟨["#a"], []⟩).2
      = (MerkleTree.build hashMark ⟨["#a"], [["z"]]⟩).2 :=
  ⟨by decide, by decide,
    root_determinism hashMark ["a"] ⟨["#a"], []⟩ ⟨["#a"], [["z"]]⟩ (by decide) (by decide)⟩

/-- Claim C9: a block with exactly one item has root `hash(item)` and
its inclusion proof for index 0 has an empty sibling list. -/
theorem single_leaf_block (h : String → String) (item : String) :
    (MerkleTree.build h (MerkleTree.add_leaf h ⟨[], []⟩ item).1).2 = h item ∧
    ∃ p, (MerkleTree.get_proof h
        (MerkleTree.build h (MerkleTree.add_leaf h ⟨[], []⟩ item).1).1 0).2 = some p ∧
      p.siblings = [] ∧ p.leaf_hash = h item ∧ p.root = h item := by
  refine ⟨?_, ⟨h item, 0, [], h item⟩, ?_, rfl, rfl, rfl⟩ <;>
    simp [MerkleTree.build, MerkleTree.add_leaf, buildTree_eq, MerkleTree.get_proof,
      proofSiblings, pyGet, MerkleTree.get_root]


/-- The signature computed inside `_finalize_block`: absent signer or a
raising signer (modelled by `none`) yields no signature. -/
def sigOf (signer : Option (String → Option String)) (r : Hash) : Option String :=
  match signer with
  | none => none
  | some f => match f r with
    | none => none
    | some s => some s

theorem finalize_spec (h : String → String) (signer : Option (String → Option String))
    (ts : Nat) (bs : Nat) (ct : List String) (tr : MerkleTree) (sb : List SignedBlock)
    (bc : Nat) :
    TokenBlocker.finalize_block h signer ts ⟨bs, ct, tr, sb, bc⟩
      = (⟨bs, [], ⟨[], []⟩,
          sb ++ [⟨ct, (MerkleTree.get_root h tr).2,
            sigOf signer (MerkleTree.get_root h tr).2, ts, bc⟩], bc + 1⟩,
         ⟨ct, (MerkleTree.get_root h tr).2,
            sigOf signer (MerkleTree.get_root h tr).2, ts, bc⟩) := rfl

theorem runAdds_fill (h : String → String) (signer : Option (String → Option String))
    (ts : Nat) :
    (toks : List String) → (b : TokenBlocker) →
    b.current_tokens.length + toks.length < b.block_size →
    runAdds h signer ts toks b =
      (⟨b.block_size, b.current_tokens ++ toks, addLeaves h b.current_tree toks,
        b.signed_blocks, b.block_counter⟩, List.replicate toks.length none)
  | [], b, _ => by simp [runAdds, addLeaves]
  | tk :: tks, b, hlt => by
    have hlt1 : b.current_tokens.length + (tks.length + 1) < b.block_size := by
      simpa using hlt
    have hadd : TokenBlocker.add_token h signer ts b tk
        = (⟨b.block_size, b.current_tokens ++ [tk],
            (MerkleTree.add_leaf h b.current_tree tk).1,
            b.signed_blocks, b.block_counter⟩, none) := by
      simp only [TokenBlocker.add_token]
      rw [if_neg (by simp only [List.length_append, List.length_cons, List.length_nil]; omega)]
    have ih := runAdds_fill h signer ts tks
      ⟨b.block_size, b.current_tokens ++ [tk], (MerkleTree.add_leaf h b.current_tree tk).1,
        b.signed_blocks, b.block_counter⟩
      (by simp only [List.length_append, List.length_cons, List.length_nil]; omega)
    simp only [runAdds, hadd, ih, List.length_cons, List.replicate_succ]
    simp [addLeaves]

theorem runAdds_append (h : String → String) (signer : Option (String → Option String))
    (ts : Nat) :
    (l1 l2 : List String) → (b : TokenBlocker) →
    runAdds h signer ts (l1 ++ l2) b
      = ((runAdds h signer ts l2 (runAdds h signer ts l1 b).1).1,
         (runAdds h signer ts l1 b).2 ++ (runAdds h signer ts l2 (runAdds h signer ts l1 b).1).2)
  | [], l2, b => by simp [runAdds]
  | tk :: tks, l2, b => by
    have ih := runAdds_append h signer ts tks l2 (TokenBlocker.add_token h signer ts b tk).1
    rw [List.cons_append]
    simp only [runAdds]
    rw [ih]
    simp

/-- Claim C3: with `block_size = s ≥ 1`, feeding exactly `s` tokens into
a fresh blocker returns `None` on the first `s - 1` calls and a
`SignedBlock` on the `s`-th; the block's token list is the full input
(so has length `s`), and the accumulation state is reset. -/
theorem sealing_trigger (h : String → String) (signer : Option (String → Option String))
    (ts : Nat) (s : Nat) (toks : List String) (hs : 1 ≤ s) (hlen : toks.length = s) :
    ∃ blk, runAdds h signer ts toks (TokenBlocker.init s)
        = (⟨s, [], ⟨[], []⟩, [blk], 1⟩, List.replicate (s - 1) none ++ [some blk]) ∧
      blk.tokens = toks ∧ blk.tokens.length = s ∧ blk.block_id = 0 := by
  have hne : toks ≠ [] := by
    intro hnil
    rw [hnil] at hlen
    simp at hlen
    omega
  obtain ⟨front, lastT, hsplit⟩ : ∃ front lastT, toks = front ++ [lastT] := by
    rcases List.eq_nil_or_concat toks with hnil | ⟨f, x, hx⟩
    · exact absurd hnil hne
    · exact ⟨f, x, by rw [hx, List.concat_eq_append]⟩
  subst hsplit
  have hfront : front.length = s - 1 := by
    simp at hlen
    omega
  have hfill := runAdds_fill h signer ts front (TokenBlocker.init s)
    (by simp [TokenBlocker.init]; omega)
  simp only [TokenBlocker.init, List.nil_append] at hfill
  rw [runAdds_append h signer ts front [lastT] (TokenBlocker.init s)]
  rw [show TokenBlocker.init s = (⟨s, [], ⟨[], []⟩, [], 0⟩ : TokenBlocker) from rfl, hfill]
  have hcond : (⟨s, front ++ [lastT],
      (MerkleTree.add_leaf h (addLeaves h ⟨[], []⟩ front) lastT).1, [], 0⟩
        : TokenBlocker).block_size
      ≤ (⟨s, front ++ [lastT],
          (MerkleTree.add_leaf h (addLeaves h ⟨[], []⟩ front) lastT).1, [], 0⟩
            : TokenBlocker).current_tokens.length := by
    simp
    omega
  simp only [runAdds, TokenBlocker.add_token, hcond, if_pos, finalize_spec]
  refine ⟨⟨front ++ [lastT],
      (MerkleTree.get_root h (MerkleTree.add_leaf h (addLeaves h ⟨[], []⟩ front) lastT).1).2,
      sigOf signer
        (MerkleTree.get_root h (MerkleTree.add_leaf h (addLeaves h ⟨[], []⟩ front) lastT).1).2,
      ts, 0⟩, ?_, rfl, hlen, rfl⟩
  rw [hfront]
  simp

/-- Claim C3 witness: block size 2, tokens `["x", "y"]`. -/
theorem sealing_trigger_witness :
    1 ≤ 2 ∧ (["x", "y"] : List String).length = 2 ∧
    ∃ blk, runAdds hashMark none 0 ["x", "y"] (TokenBlocker.init 2)
        = (⟨2, [], ⟨[], []⟩, [blk], 1⟩, List.replicate (2 - 1) none ++ [some blk]) ∧
      blk.tokens = ["x", "y"] ∧ blk.tokens.length = 2 ∧ blk.block_id = 0 :=
  ⟨by decide, by decide,
    sealing_trigger hashMark none 0 2 ["x", "y"] (by decide) (by decide)⟩

/-- Claim C4: adding `k` items with `0 < k < block_size` seals nothing;
the first `flush` then seals a block of exactly `k` items, and a second
`flush` immediately afterwards is a no-op returning `None`. -/
theorem flush_seals_small_block (h : String → String)
    (signer : Option (String → Option String)) (ts : Nat) (s k : Nat)
    (toks : List String) (hk : 0 < k) (hks : k < s) (hlen : toks.length = k) :
    (runAdds h signer ts toks (TokenBlocker.init s)).2 = List.replicate k none ∧
    ∃ blk st2,
      TokenBlocker.flush h signer ts (runAdds h signer ts toks (TokenBlocker.init s)).1
        = (st2, some blk) ∧
      blk.tokens = toks ∧ blk.tokens.length = k ∧
      TokenBlocker.flush h signer ts st2 = (st2, none) := by
  have htne : toks ≠ [] := by
    intro hnil
    rw [hnil] at hlen
    simp at hlen
    omega
  have hfill := runAdds_fill h signer ts toks (TokenBlocker.init s)
    (by simp [TokenBlocker.init]; omega)
  simp only [TokenBlocker.init, List.nil_append] at hfill
  rw [show TokenBlocker.init s = (⟨s, [], ⟨[], []⟩, [], 0⟩ : TokenBlocker) from rfl, hfill]
  refine ⟨by rw [hlen],
    ⟨toks, (MerkleTree.get_root h (addLeaves h ⟨[], []⟩ toks)).2,
      sigOf signer (MerkleTree.get_root h (addLeaves h ⟨[], []⟩ toks)).2, ts, 0⟩,
    ⟨s, [], ⟨[], []⟩,
      [⟨toks, (MerkleTree.get_root h (addLeaves h ⟨[], []⟩ toks)).2,
        sigOf signer (MerkleTree.get_root h (addLeaves h ⟨[], []⟩ toks)).2, ts, 0⟩], 1⟩,
    ?_, rfl, hlen, ?_⟩
  · simp only [TokenBlocker.flush]
    rw [if_neg (by simpa using htne)]
    simp [finalize_spec]
  · simp [TokenBlocker.flush]

/-- Claim C4 witness: block size 3, one token `["x"]`. -/
theorem flush_seals_small_block_witness :
    0 < 1 ∧ 1 < 3 ∧ (["x"] : List String).length = 1 ∧
    ((runAdds hashMark none 0 ["x"] (TokenBlocker.init 3)).2 = List.replicate 1 none ∧
    ∃ blk st2,
      TokenBlocker.flush hashMark none 0 (runAdds hashMark none 0 ["x"] (TokenBlocker.init 3)).1
        = (st2, some blk) ∧
      blk.tokens = ["x"] ∧ blk.tokens.length = 1 ∧
      TokenBlocker.flush hashMark none 0 st2 = (st2, none)) :=
  ⟨by decide, by decide, by decide,
    flush_seals_small_block hashMark none 0 3 1 ["x"] (by decide) (by decide) (by decide)⟩

/-- Claim C5: a signer whose `sign` call always raises (modelled by
returning `none`) never escapes `_finalize_block`: sealing proceeds
exactly as with no signer at all, the sealed block carries
`signature = none`, and it is appended to the history; `add_token` and
`flush` behave identically to their unsigned runs. -/
theorem signer_failure_isolation (h : String → String) (f : String → Option String)
    (hf : ∀ r, f r = none) (ts : Nat) (b : TokenBlocker) :
    TokenBlocker.finalize_block h (some f) ts b = TokenBlocker.finalize_block h none ts b ∧
    (TokenBlocker.finalize_block h (some f) ts b).2.signature = none ∧
    (TokenBlocker.finalize_block h (some f) ts b).1.signed_blocks
      = b.signed_blocks ++ [(TokenBlocker.finalize_block h (some f) ts b).2] ∧
    TokenBlocker.flush h (some f) ts b = TokenBlocker.flush h none ts b ∧
    (∀ tk, TokenBlocker.add_token h (some f) ts b tk
      = TokenBlocker.add_token h none ts b tk) := by
  refine ⟨?_, ?_, ?_, ?_, ?_⟩
  · simp [TokenBlocker.finalize_block, hf]
  · simp [TokenBlocker.finalize_block, hf]
  · simp [TokenBlocker.finalize_block, hf]
  · simp [TokenBlocker.flush, TokenBlocker.finalize_block, hf]
  · intro tk
    simp [TokenBlocker.add_token, TokenBlocker.finalize_block, hf]

/-- Claim C5 witness: an always-raising signer on a blocker holding one
token. -/
theorem signer_failure_isolation_witness :
    (∀ r : String, (fun _ : String => (none : Option String)) r = none) ∧
    (TokenBlocker.finalize_block hashMark (some (fun _ => none)) 0
        ⟨2, ["x"], ⟨["#x"], []⟩, [], 0⟩
      = TokenBlocker.finalize_block hashMark none 0 ⟨2, ["x"], ⟨["#x"], []⟩, [], 0⟩ ∧
    (TokenBlocker.finalize_block hashMark (some (fun _ => none)) 0
        ⟨2, ["x"], ⟨["#x"], []⟩, [], 0⟩).2.signature = none ∧
    (TokenBlocker.finalize_block hashMark (some (fun _ => none)) 0
        ⟨2, ["x"], ⟨["#x"], []⟩, [], 0⟩).1.signed_blocks
      = (⟨2, ["x"], ⟨["#x"], []⟩, [], 0⟩ : TokenBlocker).signed_blocks
        ++ [(TokenBlocker.finalize_block hashMark (some (fun _ => none)) 0
              ⟨2, ["x"], ⟨["#x"], []⟩, [], 0⟩).2] ∧
    TokenBlocker.flush hashMark (some (fun _ => none)) 0 ⟨2, ["x"], ⟨["#x"], []⟩, [], 0⟩
      = TokenBlocker.flush hashMark none 0 ⟨2, ["x"], ⟨["#x"], []⟩, [], 0⟩ ∧
    (∀ tk, TokenBlocker.add_token hashMark (some (fun _ => none)) 0
        ⟨2, ["x"], ⟨["#x"], []⟩, [], 0⟩ tk
      = TokenBlocker.add_token hashMark none 0 ⟨2, ["x"], ⟨["#x"], []⟩, [], 0⟩ tk)) :=
  ⟨fun _ => rfl,
    signer_failure_isolation hashMark (fun _ => none) (fun _ => rfl) 0
      ⟨2, ["x"], ⟨["#x"], []⟩, [], 0⟩⟩

/-- Invariant tying the block counter to the history: the counter equals
the history length and the history's IDs are `0, 1, ..., len-1` in
order. -/
def goodIds (b : TokenBlocker) : Prop :=
  b.block_counter = b.signed_blocks.length ∧
  b.signed_blocks.map SignedBlock.block_id = List.range b.signed_blocks.length

theorem finalize_goodIds (h : String → String)
    (signer : Option (String → Option String)) (ts : Nat) (b : TokenBlocker)
    (hb : goodIds b) : goodIds (TokenBlocker.finalize_block h signer ts b).1 := by
  obtain ⟨h1, h2⟩ := hb
  cases b with
  | mk bs ct tr sb bc =>
    simp only [goodIds, finalize_spec] at h1 h2 ⊢
    constructor
    · simp [h1]
    · simp [List.range_succ, h2, h1]

theorem add_token_goodIds (h : String → String)
    (signer : Option (String → Option String)) (ts : Nat) (b : TokenBlocker)
    (tk : String) (hb : goodIds b) :
    goodIds (TokenBlocker.add_token h signer ts b tk).1 := by
  simp only [TokenBlocker.add_token]
  split
  · exact finalize_goodIds h signer ts _ hb
  · exact hb

theorem flush_goodIds (h : String → String)
    (signer : Option (String → Option String)) (ts : Nat) (b : TokenBlocker)
    (hb : goodIds b) : goodIds (TokenBlocker.flush h signer ts b).1 := by
  simp only [TokenBlocker.flush]
  split
  · exact hb
  · exact finalize_goodIds h signer ts _ hb

theorem runOps_goodIds (h : String → String)
    (signer : Option (String → Option String)) (ts : Nat) :
    (ops : List BlockerOp) → (b : TokenBlocker) → goodIds b →
    goodIds (runOps h signer ts ops b)
  | [], _, hb => hb
  | BlockerOp.add tk :: ops, b, hb =>
    runOps_goodIds h signer ts ops _ (add_token_goodIds h signer ts b tk hb)
  | BlockerOp.flush :: ops, b, hb =>
    runOps_goodIds h signer ts ops _ (flush_goodIds h signer ts b hb)

/-- Claim C7: after any sequence of `add_token`/`flush` calls on a fresh
blocker, the history holds exactly the sealed blocks in sealing order
and their block IDs are exactly `0, 1, ..., N-1`: assigned in seal order
with no gaps and no reordering. -/
theorem block_id_monotonicity (h : String → String)
    (signer : Option (String → Option String)) (ts : Nat) (ops : List BlockerOp)
    (s : Nat) :
    (TokenBlocker.get_all_blocks (runOps h signer ts ops (TokenBlocker.init s))).map
        SignedBlock.block_id
      = List.range (TokenBlocker.get_all_blocks
          (runOps h signer ts ops (TokenBlocker.init s))).length := by
  have hinit : goodIds (TokenBlocker.init s) := by
    constructor <;> rfl
  exact (runOps_goodIds h signer ts ops (TokenBlocker.init s) hinit).2

theorem pyGet_none (l : List Hash) (i : Int)
    (hi : (l.length : Int) ≤ i ∨ i < -(l.length : Int)) : pyGet l i = none := by
  simp only [pyGet]
  rcases hi with hi | hi
  · rw [if_neg (by omega), if_neg (by omega)]
    apply List.getElem?_eq_none
    omega
  · have h0 : i < 0 := by omega
    rw [if_pos h0, if_pos (by omega)]

theorem build_fst_leaves (h : String → String) (t : MerkleTree) :
    (MerkleTree.build h t).1.leaves = t.leaves := by
  rw [MerkleTree.build]
  split <;> rfl

/-- Claim C6 (amended): `MerkleTree.get_proof` takes only a leaf index —
no block-ID lookup and no `NotFoundError` exist in the code — and for
every index outside Python's valid range (`index ≥ len(leaves)` or
`index < -len(leaves)`) it fails with an uncaught `IndexError`
(surfaced to the caller, modelled as `none`), never returning a
proof. -/
theorem get_proof_out_of_range (h : String → String) (t : MerkleTree) (i : Int)
    (hi : (t.leaves.length : Int) ≤ i ∨ i < -(t.leaves.length : Int)) :
    (MerkleTree.get_proof h t i).2 = none := by
  rw [MerkleTree.get_proof]
  have hleaves : (if t.tree = [] then (MerkleTree.build h t).1 else t).leaves = t.leaves := by
    split
    · exact build_fst_leaves h t
    · rfl
  have hpy : pyGet (if t.tree = [] then (MerkleTree.build h t).1 else t).leaves i = none := by
    rw [hleaves]
    exact pyGet_none t.leaves i hi
  cases hps : proofSiblings (if t.tree = [] then (MerkleTree.build h t).1 else t).tree.dropLast i with
  | none => simp [hps]
  | some sibs => simp [hps, hpy]

/-- Claim C6 amended-theorem witness: a two-leaf tree queried at
index 5. -/
theorem get_proof_out_of_range_witness :
    (((⟨["#a", "#b"], []⟩ : MerkleTree).leaves.length : Int) ≤ 5 ∨
      (5 : Int) < -((⟨["#a", "#b"], []⟩ : MerkleTree).leaves.length : Int)) ∧
    (MerkleTree.get_proof hashMark ⟨["#a", "#b"], []⟩ 5).2 = none :=
  ⟨by decide, get_proof_out_of_range hashMark ⟨["#a", "#b"], []⟩ 5 (by decide)⟩

/-- Claim C6 counterexample: on a built two-leaf block, `get_proof(-1)`
does not fail even though `-1` is not a valid 0-based item position — it
silently succeeds through Python negative indexing and even returns a
proof that verifies, refuting the claim that every invalid
`leaf_index` fails with `IndexOutOfRange`. -/
theorem get_proof_negative_index_accepted :
    (MerkleTree.build hashMark ⟨["#a", "#b"], []⟩).1
      = ⟨["#a", "#b"], [["#a", "#b"], ["##a#b"]]⟩ ∧
    (MerkleTree.get_proof hashMark ⟨["#a", "#b"], [["#a", "#b"], ["##a#b"]]⟩ (-1)).2
      = some ⟨"#b", -1, ["#a"], "##a#b"⟩ ∧
    MerkleTree.verify_proof hashMark ⟨"#b", -1, ["#a"], "##a#b"⟩ = true ∧
    ((-1 : Int) < 0) := by
  refine ⟨?_, ?_, ?_, ?_⟩
  · simp [MerkleTree.build, buildTree_eq, buildLevel, combine, hashMark]
  · decide
  · decide
  · decide

/-- Claim C10 (amended): when `build()` is called on a tree whose leaf
list is non-empty and a further `add_leaf` follows, `get_root` returns
the root cached by the earlier build — computed over the old leaves, not
the current leaf list — because the cached top level still holds a
single node.  (The non-emptiness proviso is forced: a build over an
empty leaf list caches nothing, so `get_root` then rebuilds over the
current leaves.) -/
theorem stale_root_after_add (h : String → String) (t : MerkleTree) (d : String)
    (hne : t.leaves ≠ []) :
    MerkleTree.get_root h (MerkleTree.add_leaf h (MerkleTree.build h t).1 d).1
      = ((MerkleTree.add_leaf h (MerkleTree.build h t).1 d).1, (MerkleTree.build h t).2) := by
  obtain ⟨sibs, r, cv, _, hlast, _, _⟩ :=
    tree_walk h t.leaves 0 hne (List.length_pos.mpr hne)
  have hgd : (buildTree h t.leaves).getLastD [] = [r] := getLastD_of_getLast? _ _ hlast
  have hbuild : MerkleTree.build h t
      = (⟨t.leaves, buildTree h t.leaves⟩, ((buildTree h t.leaves).getLastD []).headD "") := by
    rw [MerkleTree.build, if_neg hne]
  rw [hbuild]
  simp only [MerkleTree.add_leaf, MerkleTree.get_root]
  rw [if_neg (by simp [List.getLastD_eq_getLast?, hlast, buildTree_ne_nil h t.leaves])]

/-- Claim C10 amended-theorem witness: build over one leaf, then add a
second. -/
theorem stale_root_after_add_witness :
    ((⟨["#x"], []⟩ : MerkleTree).leaves ≠ []) ∧
    MerkleTree.get_root hashMark
        (MerkleTree.add_leaf hashMark (MerkleTree.build hashMark ⟨["#x"], []⟩).1 "y").1
      = ((MerkleTree.add_leaf hashMark (MerkleTree.build hashMark ⟨["#x"], []⟩).1 "y").1,
         (MerkleTree.build hashMark ⟨["#x"], []⟩).2) :=
  ⟨by decide, stale_root_after_add hashMark ⟨["#x"], []⟩ "y" (by decide)⟩

/-- Claim C10 counterexample: on a tree whose `build()` ran with no
leaves, the claim fails — that build returns the sentinel `hash("")`
(here `"#"`) and caches nothing, so after `add_leaf("a")` the next
`get_root` rebuilds over the current leaf list and returns `"#a"`, not
the root computed at the earlier build. -/
theorem stale_root_empty_build_cex :
    (MerkleTree.build hashMark ⟨[], []⟩).2 = "#" ∧
    (MerkleTree.get_root hashMark
        (MerkleTree.add_leaf hashMark (MerkleTree.build hashMark ⟨[], []⟩).1 "a").1).2 = "#a" ∧
    ("#a" : String) ≠ "#" := by
  have h2 : (MerkleTree.get_root hashMark
      (MerkleTree.add_leaf hashMark (MerkleTree.build hashMark ⟨[], []⟩).1 "a").1).2 = "#a" := by
    simp [MerkleTree.build, MerkleTree.add_leaf, MerkleTree.get_root, buildTree_eq, hashMark]
  exact ⟨by decide, h2, by decide⟩
